import Mathlib

/-!
Verification development for the YouTube transcript question-answering flow
(`youtube.py`): URL identifier extraction, transcript chunking, the in-memory
similarity index, prompt composition, transcript-fetch retry logic, and the
overall per-question flow with its startup credential check.

Strings are modelled as `List Char` throughout (Python `str`), so that all
definitions are executable and decidable.  Definitions come first, then the
supporting lemmas and the claim theorems.
-/

namespace ATS

/-! ### Chunker

Modelled from the spec: the repository delegates chunking to an external
text-splitter library whose code is not part of this repository; the spec
describes the Chunker as splitting the transcript deterministically into
ordered chunks of a configured target size with a configured overlap
between consecutive chunks, a pure function of
`(transcript, chunk_size, overlap)`. -/

/-- One splitting step: emit windows of `size` characters advancing by
`step = size - overlap` characters, stopping when the remainder fits in a
single chunk (or when `step = 0`, which the wrapper `chunks` rules out). -/
def chunksGo (size step : Nat) (t : List Char) : List (List Char) :=
  if t.length ≤ size ∨ step = 0 then [t]
  else t.take size :: chunksGo size step (t.drop step)
termination_by t.length
decreasing_by
  simp only [List.length_drop]
  omega

/-- Modelled from the spec: the Chunker.  Splits a transcript into
overlapping chunks of target length `size` with `overlap` characters shared
between consecutive chunks; the empty transcript yields no chunks. -/
def chunks (t : List Char) (size overlap : Nat) : List (List Char) :=
  if t = [] then [] else chunksGo size (size - overlap) t

/-- Concatenate the non-overlapping portion (the first `step` characters) of
every chunk except the last, followed by the whole last chunk. -/
def joinParts (step : Nat) : List (List Char) → List Char
  | [] => []
  | [c] => c
  | c :: rest => c.take step ++ joinParts step rest

/-! ### URL identifier extraction (`extract_video_id` in `youtube.py`)

The source searches the URL with the regular expression
`(?:v=|\/)([0-9A-Za-z_-]{11}).*`: at the leftmost position where either the
two characters `v=` or the single character `/` are followed by exactly 11
characters from the class `[0-9A-Za-z_-]`, it captures those 11 characters.
We model the regex engine's leftmost-match search directly. -/

/-- A character of the class `[0-9A-Za-z_-]`. -/
def isIdChar (c : Char) : Bool := c.isAlphanum || c = '_' || c = '-'

/-- Capture `([0-9A-Za-z_-]{11})` at the start of `s`, if present. -/
def grab11 (s : List Char) : Option (List Char) :=
  if (s.take 11).length = 11 ∧ (s.take 11).all isIdChar then some (s.take 11)
  else none

/-- Try the regex `(?:v=|\/)([0-9A-Za-z_-]{11}).*` anchored at the start of
`s`; the alternation tries `v=` first, then `/`, as the engine does
(the trailing `.*` always matches and captures nothing). -/
def matchAt (s : List Char) : Option (List Char) :=
  if s.take 2 = ['v', '='] then grab11 (s.drop 2)
  else if s.take 1 = ['/'] then grab11 (s.drop 1)
  else none

/-- Model of `re.search`: try the pattern at each position, leftmost first. -/
def searchFrom : List Char → Option (List Char)
  | [] => none
  | c :: rest =>
    match matchAt (c :: rest) with
    | some g => some g
    | none => searchFrom rest

/-- Model of `extract_video_id(url)`: the captured group of the leftmost match, or
`None` when the pattern matches nowhere. -/
def extract_video_id (url : List Char) : Option (List Char) :=
  searchFrom url

/-! ### Prompt Composer (`format_docs` and the `PromptTemplate` in `youtube.py`) -/

/-- Model of `format_docs(retrieved_docs)`, that is `"\n\n".join(doc.page_content ...)` —
the retrieved texts in order, consecutive texts separated by exactly one
blank line. -/
def format_docs : List (List Char) → List Char
  | [] => []
  | [d] => d
  | d :: rest => d ++ '\n' :: '\n' :: format_docs rest

/-- The template text before `{context}`. -/
def promptPre : List Char :=
  ("\n            You are a helpful assistant.\n            Answer ONLY from the provided transcript context.\n            If the context is insufficient, just say you don\x27t know.\n\n            ").toList

/-- The template text between `{context}` and `{question}`. -/
def promptMid : List Char :=
  ("\n            Question: ").toList

/-- The template text after `{question}`. -/
def promptSuf : List Char :=
  ("\n            ").toList

/-- Rendering the fixed `PromptTemplate` with `input_variables`
`['context', 'question']`: substitute the context block and the question
into the template. -/
def composePrompt (context question : List Char) : List Char :=
  promptPre ++ context ++ promptMid ++ question ++ promptSuf

/-! ### Similarity Index

Modelled from the spec: the repository delegates vector storage and
nearest-neighbour retrieval to an external vector-store library whose code
is not part of this repository.  The spec describes the Similarity Index as
an in-memory collection of (chunk, vector) pairs built once by
`build(chunks, vectors)` and queried by `query(vector, k)`, which returns
the `k` chunks whose vectors are closest to the query vector by L2
distance, nearest first, ties broken by original chunk order, and all
chunks when `k` exceeds their number.  Vectors are modelled with integer
coordinates and squared L2 distance (which orders pairs exactly as L2
distance does). -/

/-- A chunk of the transcript: its text and source offset. -/
structure Chunk where
  text : List Char
  offset : Nat
deriving DecidableEq

/-- Squared L2 distance between two vectors. -/
def sqDist (u v : List Int) : Int :=
  ((u.zip v).map (fun p => (p.1 - p.2) ^ 2)).sum

/-- The in-memory collection of (chunk, vector) pairs. -/
structure SimIndex where
  entries : List (Chunk × List Int)
deriving DecidableEq

/-- Model of `build(chunks, vectors)`: associate each chunk with its vector. -/
def build (chunkList : List Chunk) (vectors : List (List Int)) : SimIndex :=
  ⟨chunkList.zip vectors⟩

/-- Tag each element with its position, starting at `i`. -/
def tagFrom (i : Nat) : List α → List (Nat × α)
  | [] => []
  | x :: xs => (i, x) :: tagFrom (i + 1) xs

/-- Retrieval order: strictly smaller distance to the query vector first;
at equal distance, smaller original position first. -/
def qle (v : List Int) (a b : Nat × (Chunk × List Int)) : Prop :=
  sqDist a.2.2 v < sqDist b.2.2 v ∨
    (sqDist a.2.2 v = sqDist b.2.2 v ∧ a.1 ≤ b.1)

instance (v : List Int) : DecidableRel (qle v) := fun a b => by
  unfold qle
  exact inferInstance

instance (v : List Int) : IsTotal (Nat × Chunk × List Int) (qle v) := by
  constructor
  intro a b
  unfold qle
  omega

instance (v : List Int) : IsTrans (Nat × Chunk × List Int) (qle v) := by
  constructor
  intro a b c
  unfold qle
  omega

/-- The position-tagged entries of `query(vector, k)`: all indexed entries
sorted by distance to the query vector (ties by original position), the
first `k` kept. -/
def queryEntries (idx : SimIndex) (v : List Int) (k : Nat) :
    List (Nat × (Chunk × List Int)) :=
  (List.insertionSort (qle v) (tagFrom 0 idx.entries)).take k

/-- Model of `query(vector, k)`: the chunks of the `k` nearest entries. -/
def query (idx : SimIndex) (v : List Int) (k : Nat) : List Chunk :=
  (queryEntries idx v k).map (fun e => e.2.1)

/-! ### Transcript fetch with retry (`get_transcript_with_retry` in `youtube.py`)

The captioning service is an external collaborator; one call per attempt is
modelled as a function from the attempt number to an outcome.  Python's
`str.lower` is modelled by `Char.toLower` (the messages involved are
ASCII). -/

/-- Outcome of one `YouTubeTranscriptApi.get_transcript` call: the fragment
texts, the `TranscriptsDisabled` exception, or another exception with its
message. -/
inductive FetchOutcome where
  | ok (fragments : List (List Char))
  | disabled
  | err (msg : List Char)
deriving DecidableEq

/-- How `get_transcript_with_retry` finishes: return the fragments,
re-raise `TranscriptsDisabled`, raise the IP-blocking exception after the
last attempt, re-raise a non-blocking exception, or fall out of the loop
(only possible with zero attempts). -/
inductive RetryResult where
  | success (fragments : List (List Char))
  | disabledErr
  | blockedErr
  | otherErr (msg : List Char)
  | exhausted
deriving DecidableEq

/-- Does `hay` start with `needle`? -/
def startsWith : List Char → List Char → Bool
  | _, [] => true
  | [], _ :: _ => false
  | a :: as, b :: bs => a = b && startsWith as bs

/-- Python's `needle in hay` on strings: contiguous-substring test. -/
def containsSub (hay needle : List Char) : Bool :=
  match hay with
  | [] => needle.isEmpty
  | _ :: rest => startsWith hay needle || containsSub rest needle

/-- Model of `msg.lower()`. -/
def toLowerStr (s : List Char) : List Char := s.map Char.toLower

/-- Model of `"blocked" in error_msg.lower() or "ip" in error_msg.lower()`. -/
def isBlockMsg (msg : List Char) : Bool :=
  containsSub (toLowerStr msg) ("blocked").toList ||
    containsSub (toLowerStr msg) ("ip").toList

/-- The `for attempt in range(max_attempts)` loop of
`get_transcript_with_retry`, starting at `attempt`. -/
def retryLoop (svc : Nat → FetchOutcome) (maxA attempt : Nat) : RetryResult :=
  if attempt ≥ maxA then .exhausted
  else
    match svc attempt with
    | .ok t => .success t
    | .disabled => .disabledErr
    | .err msg =>
      if isBlockMsg msg then
        if attempt < maxA - 1 then retryLoop svc maxA (attempt + 1)
        else .blockedErr
      else .otherErr msg
termination_by maxA - attempt
decreasing_by omega

/-- Model of `get_transcript_with_retry(video_id, max_attempts)`: run the attempt
loop from attempt 0. -/
def get_transcript_with_retry (svc : Nat → FetchOutcome) (maxA : Nat) :
    RetryResult :=
  retryLoop svc maxA 0

/-! ### Overall per-question flow and startup check (`youtube.py` main logic)

The spec's error taxonomy: bad URL is `InputError`; captions disabled,
IP-level blocking and quota exhaustion are `UpstreamUnavailable`; the
remaining generic handler is `OtherError`.  The branches below mirror the
source's handlers: the dedicated `TranscriptsDisabled` handler, the
`blocked`/`ip` message check, the `quota` message check, and the generic
`st.error` fallback.  The Boolean component records whether
`process_transcript_and_answer` — and with it the Embedder — was ever
invoked. -/

/-- The spec's error kinds for the terminal `Failed` state. -/
inductive ErrorKind where
  | InputError
  | UpstreamUnavailable
  | OtherError
deriving DecidableEq

/-- Terminal state of the per-question flow. -/
inductive FlowState where
  | Answered (answer : List Char)
  | Failed (kind : ErrorKind)
deriving DecidableEq

/-- Classify an exception message as the outer handler does: `blocked`/`ip`
means IP blocking, `quota` means quota exhaustion (both upstream
conditions), anything else hits the generic handler. -/
def classifyMsg (msg : List Char) : ErrorKind :=
  if isBlockMsg msg then .UpstreamUnavailable
  else if containsSub (toLowerStr msg) ("quota").toList then .UpstreamUnavailable
  else .OtherError

/-- Message of the exception raised after the last blocked attempt. -/
def blockedRaiseMsg : List Char :=
  ("YouTube is blocking requests from this IP. Try using a proxy or different network.").toList

/-- Message of the exception raised when the loop is exhausted. -/
def exhaustedMsg : List Char :=
  ("Failed to retrieve transcript after multiple attempts.").toList

/-- Model of `" ".join(chunk["text"] for chunk in transcript_list)`. -/
def joinSpace : List (List Char) → List Char
  | [] => []
  | [f] => f
  | f :: rest => f ++ ' ' :: joinSpace rest

/-- The per-question main logic for the URL input method: extract the
identifier, fetch the transcript with retry, then process it.  `process`
stands for `process_transcript_and_answer` (embedding, retrieval and
generation); the Boolean records whether it was invoked. -/
def runQuestion (svc : Nat → FetchOutcome)
    (process : List Char → List Char → List Char) (maxA : Nat)
    (url question : List Char) : FlowState × Bool :=
  match extract_video_id url with
  | none => (.Failed .InputError, false)
  | some _ =>
    match get_transcript_with_retry svc maxA with
    | .success frags => (.Answered (process (joinSpace frags) question), true)
    | .disabledErr => (.Failed .UpstreamUnavailable, false)
    | .blockedErr => (.Failed (classifyMsg blockedRaiseMsg), false)
    | .otherErr m => (.Failed (classifyMsg m), false)
    | .exhausted => (.Failed (classifyMsg exhaustedMsg), false)

/-- Model of `if not GOOGLE_API_KEY: ... st.stop()` — the key must be present and
non-empty for the app to start. -/
def startupOk : Option (List Char) → Bool
  | none => false
  | some k => !k.isEmpty

/-- The app either halts at startup (before any per-question processing)
or runs the per-question flow. -/
inductive AppOutcome where
  | haltedAtStartup
  | ran (result : FlowState × Bool)
deriving DecidableEq

/-- The whole script: validate the credential at startup, then serve the
question. -/
def runApp (apiKey : Option (List Char)) (svc : Nat → FetchOutcome)
    (process : List Char → List Char → List Char) (maxA : Nat)
    (url question : List Char) : AppOutcome :=
  if startupOk apiKey then .ran (runQuestion svc process maxA url question)
  else .haltedAtStartup

end ATS

namespace ATS

theorem chunksGo_ne_nil (size step : Nat) (t : List Char) :
    chunksGo size step t ≠ [] := by
  rw [chunksGo]
  split <;> simp

theorem joinParts_cons (step : Nat) (c : List Char) (l : List (List Char))
    (h : l ≠ []) :
    joinParts step (c :: l) = c.take step ++ joinParts step l := by
  cases l with
  | nil => exact absurd rfl h
  | cons y ys => rfl

theorem joinParts_chunksGo (size step : Nat) (t : List Char)
    (hstep : step ≤ size) :
    joinParts step (chunksGo size step t) = t := by
  rw [chunksGo]
  split
  · rfl
  · rename_i h
    push_neg at h
    have ih := joinParts_chunksGo size step (t.drop step) hstep
    rw [joinParts_cons step _ _ (chunksGo_ne_nil size step (t.drop step))]
    rw [ih, List.take_take, Nat.min_eq_left hstep, List.take_append_drop]
termination_by t.length
decreasing_by
  simp only [List.length_drop]
  omega

theorem mem_chunksGo_ne_nil (size step : Nat) (t : List Char)
    (hstep : step ≤ size) (ht : t ≠ []) :
    ∀ c ∈ chunksGo size step t, c ≠ [] := by
  intro c hc
  rw [chunksGo] at hc
  split at hc
  · rw [List.mem_singleton] at hc
    rw [hc]; exact ht
  · rename_i h
    push_neg at h
    obtain ⟨hlen, hstep1⟩ := h
    rw [List.mem_cons] at hc
    rcases hc with hc | hc
    · rw [hc]
      have hsize : 0 < size := Nat.lt_of_lt_of_le (Nat.pos_of_ne_zero hstep1) hstep
      have : (t.take size).length = size := by
        rw [List.length_take]
        omega
      intro hnil
      rw [hnil] at this
      simp at this
      omega
    · have hdrop : t.drop step ≠ [] := by
        intro hnil
        have := congrArg List.length hnil
        simp only [List.length_drop, List.length_nil] at this
        omega
      exact mem_chunksGo_ne_nil size step (t.drop step) hstep hdrop c hc
termination_by t.length
decreasing_by
  simp only [List.length_drop]
  omega

theorem tagFrom_length (i : Nat) (l : List α) :
    (tagFrom i l).length = l.length := by
  induction l generalizing i with
  | nil => rfl
  | cons x xs ih => simp [tagFrom, ih]

theorem tagFrom_map (i : Nat) (l : List α) (g : α → β) :
    (tagFrom i l).map (fun e => g e.2) = l.map g := by
  induction l generalizing i with
  | nil => rfl
  | cons x xs ih => simp [tagFrom, ih]

theorem mem_tagFrom (i : Nat) (l : List α) (x : α) (hx : x ∈ l) :
    ∃ j, (j, x) ∈ tagFrom i l := by
  induction l generalizing i with
  | nil => simp at hx
  | cons y ys ih =>
    rw [List.mem_cons] at hx
    rcases hx with hx | hx
    · exact ⟨i, by rw [hx]; exact List.mem_cons_self _ _⟩
    · obtain ⟨j, hj⟩ := ih hx (i := i + 1)
      exact ⟨j, List.mem_cons_of_mem _ hj⟩

theorem snd_mem_of_mem_tagFrom (i : Nat) (l : List α) (p : Nat × α)
    (hp : p ∈ tagFrom i l) : p.2 ∈ l := by
  induction l generalizing i with
  | nil => simp [tagFrom] at hp
  | cons y ys ih =>
    rw [tagFrom, List.mem_cons] at hp
    rcases hp with hp | hp
    · rw [hp]
      exact List.mem_cons_self _ _
    · exact List.mem_cons_of_mem _ (ih (i + 1) hp)

theorem sqDist_cons (a b : Int) (u v : List Int) :
    sqDist (a :: u) (b :: v) = (a - b) ^ 2 + sqDist u v := rfl

theorem sqDist_nonneg (u v : List Int) : 0 ≤ sqDist u v := by
  refine List.sum_nonneg ?_
  intro x hx
  rw [List.mem_map] at hx
  obtain ⟨p, _, hp⟩ := hx
  rw [← hp]
  exact sq_nonneg _

theorem sqDist_self (u : List Int) : sqDist u u = 0 := by
  induction u with
  | nil => rfl
  | cons a u' ih => rw [sqDist_cons, ih, sub_self]; ring

theorem retryLoop_err (svc : Nat → FetchOutcome) (maxA attempt : Nat)
    (m : List Char) (h : attempt < maxA) (hm : svc attempt = .err m) :
    retryLoop svc maxA attempt =
      if isBlockMsg m then
        if attempt < maxA - 1 then retryLoop svc maxA (attempt + 1)
        else .blockedErr
      else .otherErr m := by
  rw [retryLoop, if_neg (by omega), hm]

theorem retryLoop_disabled_eq (svc : Nat → FetchOutcome) (maxA attempt : Nat)
    (h : attempt < maxA) (hm : svc attempt = .disabled) :
    retryLoop svc maxA attempt = .disabledErr := by
  rw [retryLoop, if_neg (by omega), hm]

theorem retryLoop_reach (svc : Nat → FetchOutcome) (maxA : Nat) :
    ∀ j, j < maxA →
      (∀ i < j, ∃ m, svc i = .err m ∧ isBlockMsg m = true) →
      retryLoop svc maxA 0 = retryLoop svc maxA j := by
  intro j
  induction j with
  | zero => intro _ _; rfl
  | succ j ih =>
    intro hj hpre
    obtain ⟨m, hm, hb⟩ := hpre j (by omega)
    rw [ih (by omega) (fun i hi => hpre i (by omega)),
      retryLoop_err svc maxA j m (by omega) hm, if_pos hb,
      if_pos (show j < maxA - 1 by omega)]

theorem get_retry_disabled (svc : Nat → FetchOutcome) (maxA j : Nat)
    (hj : j < maxA)
    (hpre : ∀ i < j, ∃ m, svc i = .err m ∧ isBlockMsg m = true)
    (hdis : svc j = .disabled) :
    get_transcript_with_retry svc maxA = .disabledErr := by
  rw [get_transcript_with_retry, retryLoop_reach svc maxA j hj hpre,
    retryLoop_disabled_eq svc maxA j hj hdis]

theorem grab11_spec (s g : List Char) (h : grab11 s = some g) :
    g.length = 11 ∧ g.all isIdChar = true := by
  unfold grab11 at h
  split at h
  · rename_i hc
    cases h
    exact hc
  · exact absurd h (by simp)

theorem matchAt_spec (s g : List Char) (h : matchAt s = some g) :
    g.length = 11 ∧ g.all isIdChar = true := by
  unfold matchAt at h
  split at h
  · exact grab11_spec _ _ h
  · split at h
    · exact grab11_spec _ _ h
    · exact absurd h (by simp)

theorem format_docs_cons (d : List Char) (l : List (List Char)) (h : l ≠ []) :
    format_docs (d :: l) = d ++ '\n' :: '\n' :: format_docs l := by
  cases l with
  | nil => exact absurd rfl h
  | cons y ys => rfl

theorem format_docs_head (d : List Char) (l : List (List Char)) :
    ∃ t, format_docs (d :: l) = d ++ t := by
  cases l with
  | nil => exact ⟨[], by simp [format_docs]⟩
  | cons y ys => exact ⟨'\n' :: '\n' :: format_docs (y :: ys), rfl⟩

theorem format_docs_mem (docs : List (List Char)) (d : List Char)
    (hd : d ∈ docs) :
    ∃ a b, format_docs docs = a ++ d ++ b := by
  induction docs with
  | nil => simp at hd
  | cons x rest ih =>
    rw [List.mem_cons] at hd
    rcases hd with hd | hd
    · subst hd
      obtain ⟨t, ht⟩ := format_docs_head d rest
      exact ⟨[], t, by simp [ht]⟩
    · cases rest with
      | nil => simp at hd
      | cons y ys =>
        obtain ⟨a, b, hab⟩ := ih hd
        refine ⟨x ++ '\n' :: '\n' :: a, b, ?_⟩
        rw [format_docs_cons x (y :: ys) (by simp), hab]
        simp

theorem format_docs_pair (xs ys : List (List Char)) (d1 d2 : List Char) :
    ∃ a b,
      format_docs (xs ++ d1 :: d2 :: ys) = a ++ (d1 ++ '\n' :: '\n' :: d2) ++ b := by
  induction xs with
  | nil =>
    obtain ⟨t, ht⟩ := format_docs_head d2 ys
    refine ⟨[], t, ?_⟩
    rw [List.nil_append, format_docs_cons d1 (d2 :: ys) (by simp), ht]
    simp
  | cons x xs' ih =>
    obtain ⟨a, b, hab⟩ := ih
    refine ⟨x ++ '\n' :: '\n' :: a, b, ?_⟩
    rw [List.cons_append, format_docs_cons x (xs' ++ d1 :: d2 :: ys) (by simp), hab]
    simp

theorem searchFrom_spec (s : List Char) :
    ∀ g, searchFrom s = some g → g.length = 11 ∧ g.all isIdChar = true := by
  induction s with
  | nil => intro g h; simp [searchFrom] at h
  | cons c rest ih =>
    intro g h
    rw [searchFrom] at h
    cases hm : matchAt (c :: rest) with
    | some g' =>
      rw [hm] at h
      cases h
      exact matchAt_spec _ _ hm
    | none =>
      rw [hm] at h
      exact ih g h

end ATS

theorem ATS.chunks_ab_eval :
    ATS.chunks ('a' :: 'b' :: []) 1 0 = ('a' :: []) :: ('b' :: []) :: [] := by
  rw [ATS.chunks, if_neg (by decide), ATS.chunksGo, if_neg (by decide),
    ATS.chunksGo, if_pos (by decide)]
  rfl

/-- C2: for every transcript and every configuration with
`overlap < chunk_size`, concatenating the non-overlapping portion (the first
`chunk_size - overlap` characters) of each chunk, the last chunk taken
whole, reconstructs the transcript exactly. -/
theorem chunker_reconstructs (t : List Char) (size overlap : Nat)
    (h : overlap < size) :
    ATS.joinParts (size - overlap) (ATS.chunks t size overlap) = t := by
  unfold ATS.chunks
  split
  · rename_i ht; rw [ht]; rfl
  · exact ATS.joinParts_chunksGo size (size - overlap) t (Nat.sub_le _ _)

/-- Witness for C2 at a concrete transcript and configuration. -/
theorem chunker_reconstructs_witness :
    2 < 3 ∧
      ATS.joinParts (3 - 2) (ATS.chunks ('a' :: 'b' :: 'c' :: 'd' :: 'e' :: []) 3 2) =
        'a' :: 'b' :: 'c' :: 'd' :: 'e' :: [] :=
  ⟨by decide, chunker_reconstructs ('a' :: 'b' :: 'c' :: 'd' :: 'e' :: []) 3 2 (by decide)⟩

/-- C3: the chunker yields no chunks exactly on the empty transcript (so a
non-empty transcript yields at least one chunk, and a boundary at the exact
transcript end produces no empty trailing chunk), and no produced chunk is
ever empty. -/
theorem chunker_nonempty_chunks (t : List Char) (size overlap : Nat) :
    (ATS.chunks t size overlap = [] ↔ t = []) ∧
      ∀ c ∈ ATS.chunks t size overlap, c ≠ [] := by
  constructor
  · unfold ATS.chunks
    split
    · rename_i ht; simp [ht]
    · rename_i ht
      simp only [ht, iff_false]
      exact ATS.chunksGo_ne_nil size (size - overlap) t
  · intro c hc
    unfold ATS.chunks at hc
    split at hc
    · simp at hc
    · rename_i ht
      exact ATS.mem_chunksGo_ne_nil size (size - overlap) t (Nat.sub_le _ _) ht c hc

/-- Witness for C3 at a concrete transcript. -/
theorem chunker_nonempty_chunks_witness :
    (ATS.chunks ('a' :: 'b' :: []) 1 0 = [] ↔ ('a' :: 'b' :: [] : List Char) = []) ∧
      ('a' :: []) ≠ ([] : List Char) :=
  ⟨(chunker_nonempty_chunks ('a' :: 'b' :: []) 1 0).1,
    (chunker_nonempty_chunks ('a' :: 'b' :: []) 1 0).2 ('a' :: [])
      (by rw [ATS.chunks_ab_eval]; decide)⟩

/-- C6: `extract_video_id` returns `dQw4w9WgXcQ` on the standard watch URL
and on the short `youtu.be` URL, and returns no identifier on strings with
no 11-character token after `v=` or `/`. -/
theorem extract_video_id_examples :
    ATS.extract_video_id ("https://www.youtube.com/watch?v=dQw4w9WgXcQ").toList =
        some ("dQw4w9WgXcQ").toList ∧
      ATS.extract_video_id ("https://youtu.be/dQw4w9WgXcQ").toList =
        some ("dQw4w9WgXcQ").toList ∧
      ATS.extract_video_id ("hello world").toList = none ∧
      ATS.extract_video_id ("v=short/alsoshort").toList = none := by
  refine ⟨by decide, by decide, by decide, by decide⟩

/-- C9: whenever `extract_video_id` returns an identifier, that identifier
has exactly 11 characters, all from the class `[0-9A-Za-z_-]`. -/
theorem extract_video_id_shape (url g : List Char)
    (h : ATS.extract_video_id url = some g) :
    g.length = 11 ∧ g.all ATS.isIdChar = true :=
  ATS.searchFrom_spec url g h

/-- Witness for C9 at a concrete URL. -/
theorem extract_video_id_shape_witness :
    ATS.extract_video_id ("https://youtu.be/dQw4w9WgXcQ").toList =
        some ("dQw4w9WgXcQ").toList ∧
      ("dQw4w9WgXcQ".toList.length = 11 ∧
        ("dQw4w9WgXcQ").toList.all ATS.isIdChar = true) :=
  ⟨by decide,
    extract_video_id_shape ("https://youtu.be/dQw4w9WgXcQ").toList
      ("dQw4w9WgXcQ").toList (by decide)⟩

/-- C4: the composed prompt contains every retrieved chunk's text, contains
the literal question string, and consecutive retrieved chunks appear in
index order separated by exactly one blank line, all bound into the fixed
instruction template. -/
theorem prompt_contains_chunks_and_question (docs : List (List Char))
    (q d : List Char) (hd : d ∈ docs) :
    (∃ a b, ATS.composePrompt (ATS.format_docs docs) q = a ++ d ++ b) ∧
      (∃ a b, ATS.composePrompt (ATS.format_docs docs) q = a ++ q ++ b) ∧
      ∀ xs d1 d2 ys, docs = xs ++ d1 :: d2 :: ys →
        ∃ a b, ATS.composePrompt (ATS.format_docs docs) q =
          a ++ (d1 ++ '\n' :: '\n' :: d2) ++ b := by
  refine ⟨?_, ?_, ?_⟩
  · obtain ⟨a, b, hab⟩ := ATS.format_docs_mem docs d hd
    refine ⟨ATS.promptPre ++ a, b ++ ATS.promptMid ++ q ++ ATS.promptSuf, ?_⟩
    rw [ATS.composePrompt, hab]
    simp
  · refine ⟨ATS.promptPre ++ ATS.format_docs docs ++ ATS.promptMid,
      ATS.promptSuf, ?_⟩
    rw [ATS.composePrompt]
  · intro xs d1 d2 ys hdocs
    obtain ⟨a, b, hab⟩ := ATS.format_docs_pair xs ys d1 d2
    rw [hdocs]
    refine ⟨ATS.promptPre ++ a, b ++ ATS.promptMid ++ q ++ ATS.promptSuf, ?_⟩
    rw [ATS.composePrompt, hab]
    simp

/-- Witness for C4: the transcript `A B C D` split into two overlapping
chunks; the composed prompt contains the first chunk's text. -/
theorem prompt_contains_chunks_and_question_witness :
    ("A B C").toList ∈ [("A B C").toList, (" C D").toList] ∧
      ∃ a b,
        ATS.composePrompt (ATS.format_docs [("A B C").toList, (" C D").toList])
            ("Is D mentioned?").toList = a ++ ("A B C").toList ++ b :=
  ⟨by decide,
    (prompt_contains_chunks_and_question [("A B C").toList, (" C D").toList]
      ("Is D mentioned?").toList ("A B C").toList (by decide)).1⟩

/-- C1: for an index built from N chunk/vector pairs, `query(v, k)` returns
exactly `min(k, N)` chunks, each an indexed chunk, ordered by
non-decreasing distance to `v` with ties broken by original position, and
when `k ≥ N` it returns all N indexed chunks. -/
theorem index_query_spec (cs : List ATS.Chunk) (vs : List (List Int))
    (v : List Int) (k : Nat) (hlen : cs.length = vs.length) :
    (ATS.query (ATS.build cs vs) v k).length = min k cs.length ∧
      List.Pairwise
        (fun a b => ATS.sqDist a.2.2 v ≤ ATS.sqDist b.2.2 v ∧
          (ATS.sqDist a.2.2 v = ATS.sqDist b.2.2 v → a.1 ≤ b.1))
        (ATS.queryEntries (ATS.build cs vs) v k) ∧
      (∀ ch ∈ ATS.query (ATS.build cs vs) v k, ch ∈ cs) ∧
      (cs.length ≤ k → (ATS.query (ATS.build cs vs) v k).Perm cs) := by
  have hsortlen :
      (List.insertionSort (ATS.qle v) (ATS.tagFrom 0 (cs.zip vs))).length =
        cs.length := by
    rw [(List.perm_insertionSort (ATS.qle v) _).length_eq,
      ATS.tagFrom_length, List.length_zip, hlen, Nat.min_self]
  refine ⟨?_, ?_, ?_, ?_⟩
  · rw [ATS.query, List.length_map, ATS.queryEntries, List.length_take]
    rw [ATS.build] at *
    rw [hsortlen]
  · have hsorted :=
      List.sorted_insertionSort (ATS.qle v) (ATS.tagFrom 0 (cs.zip vs))
    have htake :
        List.Pairwise (ATS.qle v) (ATS.queryEntries (ATS.build cs vs) v k) :=
      List.Pairwise.sublist (List.take_sublist _ _) hsorted
    refine htake.imp ?_
    intro a b hab
    rcases hab with hlt | ⟨heq, hle⟩
    · exact ⟨le_of_lt hlt, fun heq => ((ne_of_lt hlt) heq).elim⟩
    · exact ⟨le_of_eq heq, fun _ => hle⟩
  · intro ch hch
    rw [ATS.query] at hch
    obtain ⟨e, he, rfl⟩ := List.mem_map.mp hch
    have he2 : e ∈ List.insertionSort (ATS.qle v) (ATS.tagFrom 0 (cs.zip vs)) :=
      List.take_subset _ _ he
    have he3 : e ∈ ATS.tagFrom 0 (cs.zip vs) :=
      (List.mem_insertionSort (ATS.qle v)).mp he2
    have he4 : e.2 ∈ cs.zip vs := ATS.snd_mem_of_mem_tagFrom 0 _ e he3
    exact (List.of_mem_zip he4).1
  · intro hk
    rw [ATS.query, ATS.queryEntries, ATS.build]
    rw [List.take_of_length_le (by rw [hsortlen]; exact hk)]
    have hperm :=
      (List.perm_insertionSort (ATS.qle v) (ATS.tagFrom 0 (cs.zip vs))).map
        (fun e => e.2.1)
    refine hperm.trans ?_
    have : ((ATS.tagFrom 0 (cs.zip vs)).map fun e => e.2.1) =
        (cs.zip vs).map Prod.fst := by
      exact ATS.tagFrom_map 0 (cs.zip vs) Prod.fst
    rw [this, List.map_fst_zip cs vs (le_of_eq hlen)]

/-- Witness for C1 at a concrete index and query. -/
theorem index_query_spec_witness :
    ([ATS.Chunk.mk ("x").toList 0, ATS.Chunk.mk ("y").toList 1].length =
        [[(0 : Int)], [(5 : Int)]].length) ∧
      (ATS.query
            (ATS.build [ATS.Chunk.mk ("x").toList 0, ATS.Chunk.mk ("y").toList 1]
              [[(0 : Int)], [(5 : Int)]]) [(1 : Int)] 1).length =
        min 1 [ATS.Chunk.mk ("x").toList 0, ATS.Chunk.mk ("y").toList 1].length :=
  ⟨by decide,
    (index_query_spec [ATS.Chunk.mk ("x").toList 0, ATS.Chunk.mk ("y").toList 1]
      [[(0 : Int)], [(5 : Int)]] [(1 : Int)] 1 (by decide)).1⟩

/-- C7: querying with a vector identical to an indexed chunk's vector
returns first a chunk at distance zero; when that indexed chunk is the only
one at distance zero, it itself is the first result. -/
theorem index_query_exact_match (cs : List ATS.Chunk) (vs : List (List Int))
    (v : List Int) (k : Nat) (c : ATS.Chunk)
    (hmem : (c, v) ∈ cs.zip vs) (hk : 1 ≤ k) :
    ∃ e : Nat × (ATS.Chunk × List Int),
      (ATS.queryEntries (ATS.build cs vs) v k).head? = some e ∧
        ATS.sqDist e.2.2 v = 0 ∧ e.2 ∈ cs.zip vs ∧
        (ATS.query (ATS.build cs vs) v k).head? = some e.2.1 ∧
        ((∀ p ∈ cs.zip vs, ATS.sqDist p.2 v = 0 → p.1 = c) →
          (ATS.query (ATS.build cs vs) v k).head? = some c) := by
  obtain ⟨j, hj⟩ := ATS.mem_tagFrom 0 (cs.zip vs) (c, v) hmem
  have hjs : (j, (c, v)) ∈
      List.insertionSort (ATS.qle v) (ATS.tagFrom 0 (cs.zip vs)) :=
    (List.mem_insertionSort (ATS.qle v)).mpr hj
  obtain ⟨e, rest, hs⟩ :=
    List.exists_cons_of_ne_nil (List.ne_nil_of_mem hjs)
  have hsorted :=
    List.sorted_insertionSort (ATS.qle v) (ATS.tagFrom 0 (cs.zip vs))
  rw [hs] at hsorted hjs
  have hde : ATS.sqDist e.2.2 v = 0 := by
    have hle : ATS.sqDist e.2.2 v ≤ ATS.sqDist (c, v).2 v := by
      rcases List.mem_cons.mp hjs with heq | hrest
      · rw [← heq]
      · have := List.rel_of_sorted_cons hsorted _ hrest
        rcases this with hlt | ⟨heq, _⟩
        · exact le_of_lt hlt
        · exact le_of_eq heq
    have h0 : ATS.sqDist (c, v).2 v = 0 := ATS.sqDist_self v
    have := ATS.sqDist_nonneg e.2.2 v
    omega
  have hemem : e.2 ∈ cs.zip vs := by
    refine ATS.snd_mem_of_mem_tagFrom 0 (cs.zip vs) e ?_
    rw [← List.mem_insertionSort (r := ATS.qle v), hs]
    exact List.mem_cons_self _ _
  obtain ⟨k', rfl⟩ : ∃ k', k = k' + 1 := ⟨k - 1, by omega⟩
  have hqe : ATS.queryEntries (ATS.build cs vs) v (k' + 1) =
      e :: rest.take k' := by
    rw [ATS.queryEntries, ATS.build, hs, List.take_succ_cons]
  refine ⟨e, ?_, hde, hemem, ?_, ?_⟩
  · rw [hqe]; rfl
  · rw [ATS.query, hqe]; rfl
  · intro huniq
    have := huniq e.2 hemem hde
    rw [ATS.query, hqe]
    simp [this]

/-- Witness for C7 at a concrete index and an exactly matching query. -/
theorem index_query_exact_match_witness :
    ((ATS.Chunk.mk ("y").toList 1, [(5 : Int)]) ∈
        List.zip [ATS.Chunk.mk ("x").toList 0, ATS.Chunk.mk ("y").toList 1]
          [[(0 : Int)], [(5 : Int)]]) ∧ 1 ≤ 2 ∧
      ∃ e : Nat × (ATS.Chunk × List Int),
        (ATS.queryEntries
              (ATS.build [ATS.Chunk.mk ("x").toList 0, ATS.Chunk.mk ("y").toList 1]
                [[(0 : Int)], [(5 : Int)]]) [(5 : Int)] 2).head? = some e ∧
          ATS.sqDist e.2.2 [(5 : Int)] = 0 ∧
          e.2 ∈ List.zip [ATS.Chunk.mk ("x").toList 0, ATS.Chunk.mk ("y").toList 1]
              [[(0 : Int)], [(5 : Int)]] ∧
          (ATS.query
                (ATS.build [ATS.Chunk.mk ("x").toList 0, ATS.Chunk.mk ("y").toList 1]
                  [[(0 : Int)], [(5 : Int)]]) [(5 : Int)] 2).head? =
            some e.2.1 ∧
          ((∀ p ∈ List.zip [ATS.Chunk.mk ("x").toList 0, ATS.Chunk.mk ("y").toList 1]
                [[(0 : Int)], [(5 : Int)]],
              ATS.sqDist p.2 [(5 : Int)] = 0 → p.1 = ATS.Chunk.mk ("y").toList 1) →
            (ATS.query
                  (ATS.build [ATS.Chunk.mk ("x").toList 0, ATS.Chunk.mk ("y").toList 1]
                    [[(0 : Int)], [(5 : Int)]]) [(5 : Int)] 2).head? =
              some (ATS.Chunk.mk ("y").toList 1)) :=
  ⟨by decide, by decide,
    index_query_exact_match [ATS.Chunk.mk ("x").toList 0, ATS.Chunk.mk ("y").toList 1]
      [[(0 : Int)], [(5 : Int)]] [(5 : Int)] 2 (ATS.Chunk.mk ("y").toList 1)
      (by decide) (by decide)⟩

/-- C10: `get_transcript_with_retry` re-raises the transcripts-disabled
error immediately on whichever attempt it occurs; a failure whose message
does not contain `blocked` or `ip` (case-insensitively) is re-raised with
no retry; only blocking failures are retried, and after `max_attempts`
blocked attempts the IP-blocking error is raised. -/
theorem retry_error_policy (svc : Nat → ATS.FetchOutcome) (maxA j : Nat)
    (hj : j < maxA)
    (hpre : ∀ i < j, ∃ m, svc i = ATS.FetchOutcome.err m ∧
      ATS.isBlockMsg m = true) :
    (svc j = ATS.FetchOutcome.disabled →
        ATS.get_transcript_with_retry svc maxA = ATS.RetryResult.disabledErr) ∧
      (∀ m, svc j = ATS.FetchOutcome.err m → ATS.isBlockMsg m = false →
        ATS.get_transcript_with_retry svc maxA = ATS.RetryResult.otherErr m) ∧
      ((∀ i < maxA, ∃ m, svc i = ATS.FetchOutcome.err m ∧
          ATS.isBlockMsg m = true) →
        ATS.get_transcript_with_retry svc maxA = ATS.RetryResult.blockedErr) := by
  refine ⟨fun hdis => ATS.get_retry_disabled svc maxA j hj hpre hdis, ?_, ?_⟩
  · intro m hm hb
    rw [ATS.get_transcript_with_retry, ATS.retryLoop_reach svc maxA j hj hpre,
      ATS.retryLoop_err svc maxA j m hj hm, if_neg (by simp [hb])]
  · intro hall
    have h1 : maxA - 1 < maxA := by omega
    obtain ⟨m, hm, hb⟩ := hall (maxA - 1) h1
    rw [ATS.get_transcript_with_retry,
      ATS.retryLoop_reach svc maxA (maxA - 1) h1 (fun i hi => hall i (by omega)),
      ATS.retryLoop_err svc maxA (maxA - 1) m h1 hm, if_pos hb,
      if_neg (by omega)]

/-- Witness for C10: a service whose first attempt raises
`TranscriptsDisabled` makes the fetch end in the re-raised disabled
error. -/
theorem retry_error_policy_witness :
    0 < 3 ∧
      ATS.get_transcript_with_retry (fun _ => ATS.FetchOutcome.disabled) 3 =
        ATS.RetryResult.disabledErr :=
  ⟨by decide,
    (retry_error_policy (fun _ => ATS.FetchOutcome.disabled) 3 0 (by decide)
        (fun i hi => absurd hi (Nat.not_lt_zero i))).1 rfl⟩

/-- C5: when the captioning service raises transcripts-disabled on the
attempt that reaches it, the per-question flow terminates in `Failed` with
kind `UpstreamUnavailable` and the Embedder (the processing stage) is never
invoked. -/
theorem disabled_flow_fails_no_embed (svc : Nat → ATS.FetchOutcome)
    (process : List Char → List Char → List Char) (maxA : Nat)
    (url question : List Char) (j : Nat) (hj : j < maxA)
    (hpre : ∀ i < j, ∃ m, svc i = ATS.FetchOutcome.err m ∧
      ATS.isBlockMsg m = true)
    (hdis : svc j = ATS.FetchOutcome.disabled)
    (hurl : ∃ g, ATS.extract_video_id url = some g) :
    ATS.runQuestion svc process maxA url question =
      (ATS.FlowState.Failed ATS.ErrorKind.UpstreamUnavailable, false) := by
  obtain ⟨g, hg⟩ := hurl
  unfold ATS.runQuestion
  rw [hg, ATS.get_retry_disabled svc maxA j hj hpre hdis]

/-- Witness for C5: a service with transcripts disabled, a valid URL. -/
theorem disabled_flow_fails_no_embed_witness :
    0 < 3 ∧
      ATS.runQuestion (fun _ => ATS.FetchOutcome.disabled) (fun _ q => q) 3
          ("https://youtu.be/dQw4w9WgXcQ").toList ("What is it about?").toList =
        (ATS.FlowState.Failed ATS.ErrorKind.UpstreamUnavailable, false) :=
  ⟨by decide,
    disabled_flow_fails_no_embed (fun _ => ATS.FetchOutcome.disabled)
      (fun _ q => q) 3 ("https://youtu.be/dQw4w9WgXcQ").toList
      ("What is it about?").toList 0 (by decide)
      (fun i hi => absurd hi (Nat.not_lt_zero i)) rfl
      ⟨("dQw4w9WgXcQ").toList, by decide⟩⟩

/-- C8: with the API-key credential absent from the environment, the app
halts at startup; the per-question flow is never entered. -/
theorem missing_key_halts (svc : Nat → ATS.FetchOutcome)
    (process : List Char → List Char → List Char) (maxA : Nat)
    (url question : List Char) :
    ATS.runApp none svc process maxA url question =
      ATS.AppOutcome.haltedAtStartup := rfl
